import Mathlib

/-!
Shallow embedding of `src/importer/flush-tree.js` from pure-js-ipfs-unixfs.

The module converts a flat list of content-identified file records into a
nested directory tree, persists every directory bottom-up through an external
persist collaborator, pushes a record for each persisted non-root directory to
an output sink, and returns the root content id.

Modelling choices:
* Content ids are opaque `Nat`s (the JS code only compares their base-58
  string forms, an injective encoding).
* A JS object used as a tree node is embedded as `JsTree`: `nil`/`cons` form
  the insertion-ordered key chain of an object, `leaf` is a stored content id.
  This keeps every function structurally recursive, hence kernel-reducible.
* The persist collaborator is an oracle `P : List Link → Option (Nat × Nat)`
  returning the new content id and the measured node size, or `none` on
  storage failure.  It is a pure function of the links, matching the
  content-addressing determinism the collaborator is specified to have
  (the UnixFS payload of a directory node is a constant).
* The async fan-out/fan-in of `async/mapValues` is serialised in key order:
  each child subtree is flushed to completion before the next sibling starts,
  and the first error aborts the enclosing directory.  All claims proved here
  are insensitive to the sibling interleaving.
* The state `St` records the chronological write log of the size index
  (a JS object: reads see the last write), the list of persist calls made
  (with ghost data: the key path of the directory from the root), and the
  items pushed to the output sink.
-/

deriving instance DecidableEq for Except

namespace UnixFS

structure FileEntry where
  path : String
  size : Nat
  cid : Nat
deriving DecidableEq

/-- A DAG link handed to the persist collaborator: name, size from the size
index (`none` embeds the JS `undefined` produced by a missing lookup), and
the child content id. -/
structure Link where
  name : String
  size : Option Nat
  cid : Nat
deriving DecidableEq

/-- One invocation of the persist collaborator.  `path` is the JS `path`
argument of the `traverse` call that made it (`none` at the root); `pos` is
ghost verification data: the chain of object keys from the root to this
directory. -/
structure PersistCall where
  path : Option String
  pos : List String
  links : List Link
deriving DecidableEq

/-- An item pushed to the output sink: either a directory record
`{path, size, multihash}` or an `Error` value. -/
inductive OutItem where
  | record (path : String) (size : Nat) (cid : Nat)
  | errorMsg (msg : String)
deriving DecidableEq

/-- Observable state of one run: the size-index write log, the persist calls
made, and the output pushed to the sink, all in chronological order. -/
structure St where
  sizeIndex : List (Nat × Nat)
  calls : List PersistCall
  output : List OutItem
deriving DecidableEq

def St.init : St := ⟨[], [], []⟩

/-- Result of the top-level `flushTree` callback: an error value for more
than one root, a bare `callback()` when there is nothing to do, the error
propagated from a failed persist, or the root content id. -/
inductive FlushResult where
  | multipleRoots
  | noRoot
  | persistFailed
  | ok (cid : Nat)
deriving DecidableEq

/-- A JS value in the tree: a stored content id (a Buffer in the source), or
an object given as its insertion-ordered chain of key/value entries. -/
inductive JsTree where
  | leaf (cid : Nat)
  | nil
  | cons (key : String) (val : JsTree) (rest : JsTree)
deriving DecidableEq

/-- `Object.keys` of an embedded object. -/
def keysOf : JsTree → List String
  | .cons k _ r => k :: keysOf r
  | _ => []

def numKeys (t : JsTree) : Nat := (keysOf t).length

/-- Property read `t[key]` on an embedded object. -/
def lookupKey : JsTree → String → Option JsTree
  | .cons k v r, key => if k = key then some v else lookupKey r key
  | _, _ => none

/-- Property write `t[key] = val`: replaces in place when the key exists,
otherwise appends the new key at the end, as JS objects do. -/
def setKey : JsTree → String → JsTree → JsTree
  | .cons k v r, key, val => if k = key then .cons k val r else .cons k v (setKey r key val)
  | _, key, val => .cons key val .nil

/-- The source's `isLeaf`: a Buffer (content id) is a leaf, an object is not. -/
def isLeaf : JsTree → Bool
  | .leaf _ => true
  | _ => false

def leafCid : JsTree → Nat
  | .leaf c => c
  | _ => 0

/-- Split a character list on the slash character, JS `String.split` style:
the empty string yields one empty component, and consecutive slashes yield
empty components. -/
def splitSlash : List Char → List (List Char)
  | [] => [[]]
  | c :: rest =>
      let r := splitSlash rest
      if c = '/' then [] :: r
      else
        match r with
        | [] => [[c]]
        | h :: t => (c :: h) :: t

/-- Modelled from the spec: the repository's `src/utils/to-path-components`
utility is required by `flush-tree.js` but its file is not part of the
sources given, so it is reconstructed from the spec's words: the path
splitter "turns a path string into an ordered sequence of path components"
using slash-separated components, and "a leading empty component
(absolute-style paths) is stripped". -/
def toPathComponents (p : String) : List String :=
  let parts := (splitSlash p.toList).map (fun cs => String.mk cs)
  if parts.head? = some "" then parts.tail else parts

/-- The body of the `files.forEach` loop of the source's `createTree`:
skip single-component paths, strip a leading empty component, then walk or
create nested objects for every component but the last and store the content
id at the last component.  Descending into an existing Buffer value attaches
the remainder to the Buffer object in JS, which is invisible to `Object.keys`
and `isLeaf`, so the visible tree is unchanged in that case. -/
def insertComps : List String → Nat → JsTree → JsTree
  | [], _, t => t
  | [k], cid, t => setKey t k (.leaf cid)
  | k :: k2 :: rest, cid, t =>
      match lookupKey t k with
      | some (.leaf _) => t
      | some sub => setKey t k (insertComps (k2 :: rest) cid sub)
      | none => setKey t k (insertComps (k2 :: rest) cid .nil)

def createTreeStep (t : JsTree) (f : FileEntry) : JsTree :=
  let splitted := toPathComponents f.path
  if splitted.length = 1 then t
  else
    let splitted := if splitted.head? = some "" then splitted.tail else splitted
    insertComps splitted f.cid t

/-- The source's `createTree`. -/
def createTree (files : List FileEntry) : JsTree :=
  files.foldl createTreeStep JsTree.nil

/-- The source's `createSizeIndex`: one write per file, in order.  The log is
kept whole; reads see the last write, as a JS object does. -/
def createSizeIndex (files : List FileEntry) : List (Nat × Nat) :=
  files.map (fun f => (f.cid, f.size))

/-- Read of a JS object field: the last write to the key wins. -/
def lookupSize : List (Nat × Nat) → Nat → Option Nat
  | [], _ => none
  | (k, v) :: rest, c =>
      match lookupSize rest c with
      | some v' => some v'
      | none => if k = c then some v else none

/-- The source's path accumulation: `path ? path + "/" + key : key`, where
the empty string is falsy in JS. -/
def extendPath : Option String → String → String
  | none, k => k
  | some p, k => if p = "" then k else p ++ "/" ++ k

/-- The tail of the source's `traverse` for one directory: build the link
list from the resolved children and the size index, call the persist
collaborator, record the new id's size, push an Error to the sink on failure,
and push a directory record when the accumulated path is truthy. -/
def persistStep (P : List Link → Option (Nat × Nat)) (res : List (String × Nat))
    (path : Option String) (pos : List String) (s : St) : St × Except Unit Nat :=
  let links := res.map (fun kc => ⟨kc.1, lookupSize s.sizeIndex kc.2, kc.2⟩)
  let s1 : St := { s with calls := s.calls ++ [⟨path, pos, links⟩] }
  match P links with
  | none => ({ s1 with output := s1.output ++ [.errorMsg "failed to store dirNode"] }, .error ())
  | some (cid, sz) =>
      let s2 : St := { s1 with sizeIndex := s1.sizeIndex ++ [(cid, sz)] }
      match path with
      | some p =>
          if p = "" then (s2, .ok cid)
          else ({ s2 with output := s2.output ++ [.record p sz cid] }, .ok cid)
      | none => (s2, .ok cid)

/-- The `mapValues` phase of the source's `traverse`, serialised in key
order: each leaf resolves to its content id, each nested object is flushed
recursively (children, then its own persist step) and resolves to its new
content id; the first error aborts. -/
def flushList (P : List Link → Option (Nat × Nat)) :
    JsTree → Option String → List String → St → St × Except Unit (List (String × Nat))
  | .leaf _, _, _, s => (s, .ok [])
  | .nil, _, _, s => (s, .ok [])
  | .cons k v rest, path, pos, s =>
      if isLeaf v then
        match flushList P rest path pos s with
        | (s1, .error e) => (s1, .error e)
        | (s1, .ok res) => (s1, .ok ((k, leafCid v) :: res))
      else
        let cpath := extendPath path k
        match flushList P v (some cpath) (pos ++ [k]) s with
        | (s1, .error e) => (s1, .error e)
        | (s1, .ok res) =>
            match persistStep P res (some cpath) (pos ++ [k]) s1 with
            | (s2, .error e) => (s2, .error e)
            | (s2, .ok cid) =>
                match flushList P rest path pos s2 with
                | (s3, .error e) => (s3, .error e)
                | (s3, .ok res2) => (s3, .ok ((k, cid) :: res2))

/-- The source's `traverse`: resolve all children, then persist this
directory. -/
def traverse (P : List Link → Option (Nat × Nat)) (tree : JsTree)
    (path : Option String) (pos : List String) (s : St) : St × Except Unit Nat :=
  match flushList P tree path pos s with
  | (s1, .error e) => (s1, .error e)
  | (s1, .ok res) => persistStep P res path pos s1

/-- The module's exported `flushTree`: build the tree, fail on more than one
root, finish with no root on an empty tree, otherwise seed the size index and
traverse bottom-up from a `null` path. -/
def flushTree (P : List Link → Option (Nat × Nat)) (files : List FileEntry) :
    St × FlushResult :=
  let fileTree := createTree files
  if 1 < numKeys fileTree then (St.init, .multipleRoots)
  else if numKeys fileTree = 0 then (St.init, .noRoot)
  else
    let s0 : St := { sizeIndex := createSizeIndex files, calls := [], output := [] }
    match traverse P fileTree none [] s0 with
    | (s, .ok c) => (s, .ok c)
    | (s, .error _) => (s, .persistFailed)

/-- The top-level key a file entry contributes to the built tree, mirroring
the skip and strip logic of `createTree`: `none` when the entry is skipped or
its component list is empty. -/
def topKeyOf (p : String) : Option String :=
  let l := toPathComponents p
  if l.length = 1 then none
  else (if l.head? = some "" then l.tail else l).head?

/-- The directory record `persistStep` pushes for a given call, if any: the
accumulated path must be a truthy string and the persist oracle must succeed
on the call's links. -/
def emitOf (P : List Link → Option (Nat × Nat)) (cl : PersistCall) : Option OutItem :=
  match cl.path with
  | none => none
  | some p =>
      if p = "" then none
      else
        match P cl.links with
        | some (cid, sz) => some (.record p sz cid)
        | none => none

/-- Key paths of all nested directory objects of a tree, in the post-order
the serialised traversal persists them (children before their directory,
siblings in key order).  The root object itself is not listed. -/
def postOrder : JsTree → List String → List (List String)
  | .cons k v rest, pos =>
      (if isLeaf v then [] else postOrder v (pos ++ [k]) ++ [pos ++ [k]]) ++ postOrder rest pos
  | _, _ => []

/-- Well-formedness of an embedded object tree: sibling keys are distinct at
every level, as `Object.keys` of a JS object guarantees. -/
def WFl : JsTree → Bool
  | .cons k v rest => decide (k ∉ keysOf rest) && WFl v && WFl rest
  | _ => true

/-- Strict prefix order on key paths: `StrictPre p q` states that the
directory at `p` is a strict ancestor of the one at `q`. -/
abbrev StrictPre (p q : List String) : Prop := p <+: q ∧ p ≠ q

/-- Concrete fixtures used in counterexamples and witnesses. -/
def filesA : List FileEntry := [⟨"a.txt", 5, 1⟩]

def filesB : List FileEntry := [⟨"foo/bar.txt", 10, 1⟩, ⟨"foo/baz.txt", 20, 2⟩]

def filesC : List FileEntry := [⟨"a/b/c.txt", 1, 4⟩]

def filesD : List FileEntry := [⟨"a/x.txt", 1, 1⟩, ⟨"b/y.txt", 1, 2⟩]

def files5 : List FileEntry := [⟨"///x/y", 1, 5⟩]

def files8 : List FileEntry := [⟨"r/f", 5, 3⟩, ⟨"r/g", 7, 3⟩]

/-- A total persist oracle distinguishing the two-link directory of scenario
B from the root wrapper. -/
def P1 : List Link → Option (Nat × Nat) := fun l => if l.length = 2 then some (7, 77) else some (8, 88)

/-- A persist oracle failing on every call but the two-link one. -/
def P4 : List Link → Option (Nat × Nat) := fun l => if l.length = 2 then some (7, 77) else none

/-- A total persist oracle whose returned id is a function of the link ids. -/
def P5 : List Link → Option (Nat × Nat) := fun l => some (50 + (l.map (fun lk => lk.cid)).sum, 10)

/-- A constant total persist oracle. -/
def P9 : List Link → Option (Nat × Nat) := fun _ => some (9, 99)

/-- A total persist oracle keyed on the number of links. -/
def PC : List Link → Option (Nat × Nat) := fun l => some (60 + l.length, 9)


/-! Helper lemmas. -/

theorem singleComponentStep (t : JsTree) (f : FileEntry)
    (h : (toPathComponents f.path).length = 1) : createTreeStep t f = t := by
  simp [createTreeStep, h]

theorem foldl_filter_single (files : List FileEntry) : ∀ t : JsTree,
    List.foldl createTreeStep t (files.filter (fun f => !((toPathComponents f.path).length == 1))) =
      List.foldl createTreeStep t files := by
  induction files with
  | nil => intro t; rfl
  | cons f fs ih =>
      intro t
      by_cases hf : (toPathComponents f.path).length = 1
      · simp only [List.filter, hf]
        simp only [beq_self_eq_true, Bool.not_true, List.foldl_cons,
          singleComponentStep t f hf]
        exact ih t
      · have : ((toPathComponents f.path).length == 1) = false := by
          simp [hf]
        simp only [List.filter, this, Bool.not_false, List.foldl_cons]
        exact ih (createTreeStep t f)

/-- C6: an input entry whose path, after stripping a leading empty component,
has exactly one component contributes nothing to the built tree: removing all
such entries from the input leaves `createTree` unchanged. -/
theorem c6_single_component_entries_excluded (files : List FileEntry) :
    createTree (files.filter (fun f => !((toPathComponents f.path).length == 1))) =
      createTree files :=
  foldl_filter_single files JsTree.nil

theorem createTree_nil_of_single (files : List FileEntry)
    (h : ∀ f ∈ files, (toPathComponents f.path).length = 1) :
    createTree files = JsTree.nil := by
  unfold createTree
  induction files with
  | nil => rfl
  | cons f fs ih =>
      simp only [List.foldl_cons, singleComponentStep JsTree.nil f (h f (by simp))]
      exact ih (fun g hg => h g (by simp [hg]))

/-- C7: an entry list in which every path has exactly one component makes
`flushTree` finish with the distinct no-root result, no persist calls, no
size-index writes and no output. -/
theorem c7_no_root (P : List Link → Option (Nat × Nat)) (files : List FileEntry)
    (h : ∀ f ∈ files, (toPathComponents f.path).length = 1) :
    flushTree P files = (St.init, FlushResult.noRoot) := by
  simp [flushTree, createTree_nil_of_single files h, numKeys, keysOf]

theorem c7_no_root_witness :
    (∀ f ∈ filesA, (toPathComponents f.path).length = 1) ∧
      flushTree P1 filesA = (St.init, FlushResult.noRoot) :=
  ⟨by decide, c7_no_root P1 filesA (by decide)⟩

/-- C9 counterexample: with the content id 5 absent from the size index, the
flusher does not fail: it builds the link with no size, calls persist, and
returns the new id, never reporting a lookup error. -/
theorem c9_counterexample :
    traverse P9 (JsTree.cons "f" (JsTree.leaf 5) JsTree.nil) none [] St.init =
      (⟨[(9, 99)], [⟨none, [], [⟨"f", none, 5⟩]⟩], []⟩, Except.ok 9) := by decide

/-- C9 (amended): when the flusher looks up a child content id that is absent
from the size index, the lookup yields no size (the JS `undefined`), the link
is built with that absent size, and the traversal continues and succeeds. -/
theorem c9_absent_lookup_continues (P : List Link → Option (Nat × Nat)) (k : String)
    (c cid0 sz0 : Nat) (pos : List String) (s : St)
    (habs : lookupSize s.sizeIndex c = none)
    (hP : P [⟨k, none, c⟩] = some (cid0, sz0)) :
    traverse P (JsTree.cons k (JsTree.leaf c) JsTree.nil) none pos s =
      ({ s with sizeIndex := s.sizeIndex ++ [(cid0, sz0)],
                calls := s.calls ++ [⟨none, pos, [⟨k, none, c⟩]⟩] }, Except.ok cid0) := by
  simp [traverse, flushList, isLeaf, leafCid, persistStep, habs, hP]

theorem c9_absent_lookup_witness :
    lookupSize St.init.sizeIndex 5 = none ∧
      traverse P9 (JsTree.cons "f" (JsTree.leaf 5) JsTree.nil) none [] St.init =
        ({ St.init with sizeIndex := St.init.sizeIndex ++ [(9, 99)],
                        calls := St.init.calls ++ [⟨none, [], [⟨"f", none, 5⟩]⟩] }, Except.ok 9) :=
  ⟨by decide, c9_absent_lookup_continues P9 "f" 5 9 99 [] St.init (by decide) (by decide)⟩


/-- C1 counterexample: on the scenario-B entries the code makes two persist
calls (the "foo" directory and the synthetic root wrapper above it), pushes
one directory record (for "foo"), and returns the wrapper's id 8, not the
"foo" directory's id 7. -/
theorem c1_counterexample :
    (flushTree P1 filesB).1.calls.length = 2 ∧
      (flushTree P1 filesB).1.output = [OutItem.record "foo" 77 7] ∧
      (flushTree P1 filesB).2 = FlushResult.ok 8 := by decide

/-- C1 (amended): on the scenario-B entries, `flushTree` makes two persist
calls in order: first the directory "foo" with ordered links
(bar.txt, 10, X) and (baz.txt, 20, Y), then the synthetic root wrapper whose
single link carries the name "foo" and the first call's id and measured
size.  It returns the wrapper's id as the root content id and emits exactly
one directory record, for path "foo". -/
theorem c1_scenarioB_amended (P : List Link → Option (Nat × Nat)) (X Y c1 z1 c2 z2 : Nat)
    (hXY : X ≠ Y)
    (h1 : P [⟨"bar.txt", some 10, X⟩, ⟨"baz.txt", some 20, Y⟩] = some (c1, z1))
    (h2 : P [⟨"foo", some z1, c1⟩] = some (c2, z2)) :
    flushTree P [⟨"foo/bar.txt", 10, X⟩, ⟨"foo/baz.txt", 20, Y⟩] =
      (⟨[(X, 10), (Y, 20), (c1, z1), (c2, z2)],
        [⟨some "foo", ["foo"], [⟨"bar.txt", some 10, X⟩, ⟨"baz.txt", some 20, Y⟩]⟩,
         ⟨none, [], [⟨"foo", some z1, c1⟩]⟩],
        [OutItem.record "foo" z1 c1]⟩, FlushResult.ok c2) := by
  have t1 : toPathComponents "foo/bar.txt" = ["foo", "bar.txt"] := by decide
  have t2 : toPathComponents "foo/baz.txt" = ["foo", "baz.txt"] := by decide
  have htree : createTree [⟨"foo/bar.txt", 10, X⟩, ⟨"foo/baz.txt", 20, Y⟩] =
      JsTree.cons "foo" (JsTree.cons "bar.txt" (JsTree.leaf X)
        (JsTree.cons "baz.txt" (JsTree.leaf Y) JsTree.nil)) JsTree.nil := by
    simp [createTree, createTreeStep, t1, t2, insertComps, lookupKey, setKey]
  have hYX : (Y = X) = False := by simp [Ne.symm hXY]
  unfold flushTree
  rw [htree]
  simp only [numKeys, keysOf]
  simp [traverse, flushList, isLeaf, leafCid,
    persistStep, extendPath, createSizeIndex, lookupSize, hYX, h1, h2]

theorem c1_scenarioB_witness :
    (1 : Nat) ≠ 2 ∧
      flushTree P1 [⟨"foo/bar.txt", 10, 1⟩, ⟨"foo/baz.txt", 20, 2⟩] =
        (⟨[(1, 10), (2, 20), (7, 77), (8, 88)],
          [⟨some "foo", ["foo"], [⟨"bar.txt", some 10, 1⟩, ⟨"baz.txt", some 20, 2⟩]⟩,
           ⟨none, [], [⟨"foo", some 77, 7⟩]⟩],
          [OutItem.record "foo" 77 7]⟩, FlushResult.ok 8) :=
  ⟨by decide, c1_scenarioB_amended P1 1 2 7 77 8 88 (by decide) (by decide) (by decide)⟩


theorem mem_keys_setKey (t : JsTree) (k : String) (v : JsTree) :
    k ∈ keysOf (setKey t k v) := by
  induction t with
  | leaf c => simp [setKey, keysOf]
  | nil => simp [setKey, keysOf]
  | cons k' v' r ihv ihr =>
      by_cases h : k' = k
      · simp [setKey, h, keysOf]
      · simp [setKey, h, keysOf, ihr]

theorem mem_keys_setKey_of_mem (t : JsTree) (k k' : String) (v : JsTree)
    (h : k' ∈ keysOf t) : k' ∈ keysOf (setKey t k v) := by
  induction t with
  | leaf c => simp [keysOf] at h
  | nil => simp [keysOf] at h
  | cons k2 v2 r ihv ihr =>
      by_cases hk : k2 = k
      · simpa [setKey, hk, keysOf] using (by simpa [keysOf, hk] using h)
      · rcases (by simpa [keysOf] using h) with h1 | h1
        · simp [setKey, hk, keysOf, h1]
        · simp [setKey, hk, keysOf, ihr h1]

theorem mem_keys_of_lookupKey (t : JsTree) (k : String) (v : JsTree)
    (h : lookupKey t k = some v) : k ∈ keysOf t := by
  induction t with
  | leaf c => simp [lookupKey] at h
  | nil => simp [lookupKey] at h
  | cons k2 v2 r ihv ihr =>
      by_cases hk : k2 = k
      · simp [keysOf, hk]
      · simp only [lookupKey, hk, if_false] at h
        simp [keysOf, ihr h]

theorem mem_keys_insertComps_head (comps : List String) (k : String) (rest : List String)
    (c : Nat) (t : JsTree) (hc : comps = k :: rest) :
    k ∈ keysOf (insertComps comps c t) := by
  subst hc
  cases rest with
  | nil => simpa [insertComps] using mem_keys_setKey t k (JsTree.leaf c)
  | cons k2 r2 =>
      simp only [insertComps]
      cases hl : lookupKey t k with
      | none => exact mem_keys_setKey t k _
      | some sub =>
          cases sub with
          | leaf c2 => exact mem_keys_of_lookupKey t k _ hl
          | nil => exact mem_keys_setKey t k _
          | cons a b d => exact mem_keys_setKey t k _

theorem mem_keys_insertComps_of_mem (comps : List String) (c : Nat) (t : JsTree)
    (k' : String) (h : k' ∈ keysOf t) : k' ∈ keysOf (insertComps comps c t) := by
  cases comps with
  | nil => simpa [insertComps] using h
  | cons k rest =>
      cases rest with
      | nil => simpa [insertComps] using mem_keys_setKey_of_mem t k k' _ h
      | cons k2 r2 =>
          simp only [insertComps]
          cases hl : lookupKey t k with
          | none => exact mem_keys_setKey_of_mem t k k' _ h
          | some sub =>
              cases sub with
              | leaf c2 => exact h
              | nil => exact mem_keys_setKey_of_mem t k k' _ h
              | cons a b d => exact mem_keys_setKey_of_mem t k k' _ h

theorem mem_keys_createTreeStep (t : JsTree) (f : FileEntry) (k : String)
    (h : topKeyOf f.path = some k) : k ∈ keysOf (createTreeStep t f) := by
  unfold topKeyOf at h
  by_cases h1 : (toPathComponents f.path).length = 1
  · simp [h1] at h
  · simp only [h1, if_false] at h
    unfold createTreeStep
    simp only [h1, if_false]
    cases hs : (if (toPathComponents f.path).head? = some "" then
        (toPathComponents f.path).tail else toPathComponents f.path) with
    | nil => rw [hs] at h; simp at h
    | cons k0 r0 =>
        rw [hs] at h
        simp only [List.head?] at h
        injection h with h
        subst h
        exact mem_keys_insertComps_head (k0 :: r0) k0 r0 f.cid t rfl

theorem mem_keys_createTreeStep_of_mem (t : JsTree) (f : FileEntry) (k : String)
    (h : k ∈ keysOf t) : k ∈ keysOf (createTreeStep t f) := by
  unfold createTreeStep
  by_cases h1 : (toPathComponents f.path).length = 1
  · simpa [h1] using h
  · simp only [h1, if_false]
    exact mem_keys_insertComps_of_mem _ f.cid t k h

theorem mem_keys_createTree_aux (files : List FileEntry) : ∀ (t : JsTree) (k : String),
    ((∃ f ∈ files, topKeyOf f.path = some k) ∨ k ∈ keysOf t) →
      k ∈ keysOf (List.foldl createTreeStep t files) := by
  induction files with
  | nil =>
      intro t k h
      rcases h with ⟨f, hf, _⟩ | h
      · simp at hf
      · simpa using h
  | cons f fs ih =>
      intro t k h
      simp only [List.foldl_cons]
      rcases h with ⟨g, hg, hk⟩ | h
      · rcases (by simpa using hg) with hg | hg
        · subst hg
          exact ih _ k (Or.inr (mem_keys_createTreeStep t g k hk))
        · exact ih _ k (Or.inl ⟨g, hg, hk⟩)
      · exact ih _ k (Or.inr (mem_keys_createTreeStep_of_mem t f k h))

theorem one_lt_length_of_two_mem {α : Type} {l : List α} {a b : α}
    (ha : a ∈ l) (hb : b ∈ l) (hab : a ≠ b) : 1 < l.length := by
  cases l with
  | nil => simp at ha
  | cons x r =>
      cases r with
      | nil =>
          simp at ha hb
          exact absurd (ha.trans hb.symm) hab
      | cons y r2 => simp only [List.length_cons]; omega

/-- C3: when the entries imply at least two distinct top-level components,
`flushTree` fails with the multiple-roots error before any persistence work:
no persist calls, no size-index writes, nothing pushed to the sink. -/
theorem c3_multiple_roots (P : List Link → Option (Nat × Nat)) (files : List FileEntry)
    (h : ∃ f ∈ files, ∃ g ∈ files, topKeyOf f.path ≠ none ∧ topKeyOf g.path ≠ none ∧
      topKeyOf f.path ≠ topKeyOf g.path) :
    flushTree P files = (St.init, FlushResult.multipleRoots) := by
  rcases h with ⟨f, hf, g, hg, hfn, hgn, hne⟩
  rcases Option.ne_none_iff_exists'.mp hfn with ⟨kf, hkf⟩
  rcases Option.ne_none_iff_exists'.mp hgn with ⟨kg, hkg⟩
  have hkne : kf ≠ kg := by
    intro hEq
    exact hne (by rw [hkf, hkg, hEq])
  have hmf : kf ∈ keysOf (createTree files) :=
    mem_keys_createTree_aux files JsTree.nil kf (Or.inl ⟨f, hf, hkf⟩)
  have hmg : kg ∈ keysOf (createTree files) :=
    mem_keys_createTree_aux files JsTree.nil kg (Or.inl ⟨g, hg, hkg⟩)
  have hlt : 1 < numKeys (createTree files) :=
    one_lt_length_of_two_mem hmf hmg hkne
  simp [flushTree, hlt]

theorem c3_multiple_roots_witness :
    (∃ f ∈ filesD, ∃ g ∈ filesD, topKeyOf f.path ≠ none ∧ topKeyOf g.path ≠ none ∧
        topKeyOf f.path ≠ topKeyOf g.path) ∧
      flushTree P1 filesD = (St.init, FlushResult.multipleRoots) :=
  ⟨by decide, c3_multiple_roots P1 filesD (by decide)⟩


theorem pre_append_right {α : Type} (l m n : List α) (h : m <+: n) : l ++ m <+: l ++ n := by
  rcases h with ⟨t, rfl⟩
  exact ⟨t, by simp⟩

theorem pre_of_pre_left {α : Type} (m n r : List α) (h : m <+: n) : m <+: n ++ r := by
  rcases h with ⟨t, rfl⟩
  exact ⟨t ++ r, by simp⟩

theorem emitOf_record (P : List Link → Option (Nat × Nat)) (cl : PersistCall) (x : OutItem)
    (h : emitOf P cl = some x) : ∃ p sz c, x = OutItem.record p sz c := by
  unfold emitOf at h
  split at h
  · simp at h
  · split at h
    · simp at h
    · split at h
      · injection h with h
        exact ⟨_, _, _, h.symm⟩
      · simp at h

theorem mem_filterMap_emitOf (P : List Link → Option (Nat × Nat)) (l : List PersistCall)
    (x : OutItem) (h : x ∈ l.filterMap (emitOf P)) : ∃ p sz c, x = OutItem.record p sz c := by
  rcases List.mem_filterMap.mp h with ⟨cl, _, hcl⟩
  exact emitOf_record P cl x hcl

theorem persistStep_shape (P : List Link → Option (Nat × Nat)) (res : List (String × Nat))
    (path : Option String) (pos : List String) (s s' : St) (r : Except Unit Nat)
    (h : persistStep P res path pos s = (s', r)) :
    ∃ links, links = res.map (fun kc => (⟨kc.1, lookupSize s.sizeIndex kc.2, kc.2⟩ : Link)) ∧
      s'.calls = s.calls ++ [⟨path, pos, links⟩] ∧
      ((∃ cid sz, P links = some (cid, sz) ∧ r = Except.ok cid ∧
          s'.sizeIndex = s.sizeIndex ++ [(cid, sz)] ∧
          s'.output = s.output ++ List.filterMap (emitOf P) [⟨path, pos, links⟩]) ∨
       (P links = none ∧ r = Except.error () ∧ s'.sizeIndex = s.sizeIndex ∧
          s'.output = s.output ++ [OutItem.errorMsg "failed to store dirNode"])) := by
  refine ⟨res.map (fun kc => (⟨kc.1, lookupSize s.sizeIndex kc.2, kc.2⟩ : Link)), rfl, ?_⟩
  simp only [persistStep] at h
  split at h
  · -- persist failed
    injection h with h1 h2
    subst h1; subst h2
    refine ⟨rfl, ?_⟩
    exact Or.inr ⟨by assumption, rfl, rfl, rfl⟩
  · -- persist succeeded
    rename_i cid sz hP
    split at h
    · -- path = some p
      rename_i p
      split at h
      · -- p = ""
        injection h with h1 h2
        subst h1; subst h2
        refine ⟨rfl, Or.inl ⟨cid, sz, hP, rfl, rfl, ?_⟩⟩
        simp only [List.filterMap, emitOf]
        rename_i hpe
        simp [hpe]
      · -- p truthy: record pushed
        injection h with h1 h2
        subst h1; subst h2
        refine ⟨rfl, Or.inl ⟨cid, sz, hP, rfl, rfl, ?_⟩⟩
        simp only [List.filterMap, emitOf]
        rename_i hpe
        simp [hpe, hP]
    · -- path = none
      injection h with h1 h2
      subst h1; subst h2
      exact ⟨rfl, Or.inl ⟨cid, sz, hP, rfl, rfl, by simp [List.filterMap, emitOf]⟩⟩


/-- Everything one run of the child-resolution phase does to the state:
the size index, call list and output only grow; new size entries come from
the persist oracle; every new call carries a non-null path; the key paths of
the new calls form a prefix of the post-order enumeration, with equality on
success; on success the new output is exactly the records of the new calls;
on failure the new output is records followed by one trailing Error. -/
theorem flushList_spec (P : List Link → Option (Nat × Nat)) (t : JsTree) :
    ∀ (path : Option String) (pos : List String) (s s' : St)
      (r : Except Unit (List (String × Nat))),
    flushList P t path pos s = (s', r) →
    ∃ nsi nc nout,
      s'.sizeIndex = s.sizeIndex ++ nsi ∧
      s'.calls = s.calls ++ nc ∧
      s'.output = s.output ++ nout ∧
      (∀ e ∈ nsi, ∃ l, P l = some e) ∧
      (∀ cl ∈ nc, cl.path ≠ none) ∧
      nc.map (fun cl => cl.pos) <+: postOrder t pos ∧
      (∀ res, r = Except.ok res →
        nc.map (fun cl => cl.pos) = postOrder t pos ∧
        nout = nc.filterMap (emitOf P) ∧
        ∀ cl ∈ nc, P cl.links ≠ none) ∧
      (∀ e, r = Except.error e →
        ∃ pre, nout = pre ++ [OutItem.errorMsg "failed to store dirNode"] ∧
          ∀ x ∈ pre, ∃ p sz c, x = OutItem.record p sz c) := by
  induction t with
  | leaf c =>
      intro path pos s s' r h
      simp only [flushList] at h
      injection h with h1 h2
      subst h1
      refine ⟨[], [], [], by simp, by simp, by simp, by simp, by simp, by simp [postOrder], ?_, ?_⟩
      · intro res hres
        simp [postOrder]
      · intro e he
        rw [← h2] at he
        simp at he
  | nil =>
      intro path pos s s' r h
      simp only [flushList] at h
      injection h with h1 h2
      subst h1
      refine ⟨[], [], [], by simp, by simp, by simp, by simp, by simp, by simp [postOrder], ?_, ?_⟩
      · intro res hres
        simp [postOrder]
      · intro e he
        rw [← h2] at he
        simp at he
  | cons k v rest ihv ihr =>
      intro path pos s s' r h
      simp only [flushList] at h
      split at h
      · -- leaf child: resolve directly and continue with the rest
        rename_i hleaf
        split at h
        · -- rest errored
          rename_i s1 e heq
          injection h with h1 h2
          subst h1
          obtain ⟨nsi, nc, nout, e1, e2, e3, e4, e5, e6, e7, e8⟩ := ihr path pos s s1 _ heq
          refine ⟨nsi, nc, nout, e1, e2, e3, e4, e5, ?_, ?_, ?_⟩
          · simpa [postOrder, hleaf] using e6
          · intro res hres
            rw [← h2] at hres
            simp at hres
          · intro e' he
            exact e8 e rfl
        · -- rest succeeded
          rename_i s1 res1 heq
          injection h with h1 h2
          subst h1
          obtain ⟨nsi, nc, nout, e1, e2, e3, e4, e5, e6, e7, e8⟩ := ihr path pos s s1 _ heq
          refine ⟨nsi, nc, nout, e1, e2, e3, e4, e5, ?_, ?_, ?_⟩
          · simpa [postOrder, hleaf] using e6
          · intro res hres
            obtain ⟨f1, f2, f3⟩ := e7 res1 rfl
            exact ⟨by simpa [postOrder, hleaf] using f1, f2, f3⟩
          · intro e' he
            rw [← h2] at he
            simp at he
      · -- directory child: flush it, persist it, then continue with the rest
        rename_i hleaf
        have hleaf' : isLeaf v = false := by
          revert hleaf
          cases isLeaf v <;> simp
        split at h
        · -- child subtree errored
          rename_i s1 e heq
          injection h with h1 h2
          subst h1
          obtain ⟨nsi, nc, nout, e1, e2, e3, e4, e5, e6, e7, e8⟩ :=
            ihv (some (extendPath path k)) (pos ++ [k]) s s1 _ heq
          refine ⟨nsi, nc, nout, e1, e2, e3, e4, e5, ?_, ?_, ?_⟩
          · rw [postOrder, if_neg (by simp [hleaf'])]
            exact pre_of_pre_left _ _ _ (pre_of_pre_left _ _ _ e6)
          · intro res hres
            rw [← h2] at hres
            simp at hres
          · intro e' he
            exact e8 e rfl
        · -- child subtree succeeded
          rename_i s1 res1 heqv
          split at h
          · -- persist of the child directory failed
            rename_i s2 e heqp
            injection h with h1 h2
            subst h1
            obtain ⟨nsi, nc, nout, e1, e2, e3, e4, e5, e6, e7, e8⟩ :=
              ihv (some (extendPath path k)) (pos ++ [k]) s s1 _ heqv
            obtain ⟨f1, f2, f3⟩ := e7 res1 rfl
            obtain ⟨links, hl, g1, g2⟩ := persistStep_shape P res1 _ _ s1 s2 _ heqp
            rcases g2 with ⟨cid, sz, hP, hre, _, _⟩ | ⟨hP, hre, g3, g4⟩
            · simp at hre
            refine ⟨nsi, nc ++ [⟨some (extendPath path k), pos ++ [k], links⟩], nout ++ [OutItem.errorMsg "failed to store dirNode"], ?_, ?_, ?_, e4, ?_, ?_, ?_, ?_⟩
            · rw [g3, e1]
            · rw [g1, e2, List.append_assoc]
            · rw [g4, e3, List.append_assoc]
            · intro cl hcl
              rcases List.mem_append.mp hcl with hcl | hcl
              · exact e5 cl hcl
              · simp at hcl
                subst hcl
                simp
            · rw [postOrder, if_neg (by simp [hleaf'])]
              refine pre_of_pre_left _ _ _ ?_
              rw [List.map_append, f1]
              simp
            · intro res hres
              rw [← h2] at hres
              simp at hres
            · intro e' he
              refine ⟨nout, rfl, ?_⟩
              intro x hx
              rw [f2] at hx
              exact mem_filterMap_emitOf P nc x hx
          · -- persist of the child directory succeeded
            rename_i s2 cid heqp
            split at h
            · -- rest errored
              rename_i s3 e heqr
              injection h with h1 h2
              subst h1
              obtain ⟨nsi, nc, nout, e1, e2, e3, e4, e5, e6, e7, e8⟩ :=
                ihv (some (extendPath path k)) (pos ++ [k]) s s1 _ heqv
              obtain ⟨f1, f2, f3⟩ := e7 res1 rfl
              obtain ⟨links, hl, g1, g2⟩ := persistStep_shape P res1 _ _ s1 s2 _ heqp
              rcases g2 with ⟨cid', sz, hP, hre, g3, g4⟩ | ⟨hP, hre, _, _⟩
              swap
              · simp at hre
              obtain ⟨msi, mc, mout, d1, d2, d3, d4, d5, d6, d7, d8⟩ := ihr path pos s2 s3 _ heqr
              obtain ⟨pre, hpre, hprerec⟩ := d8 e rfl
              refine ⟨nsi ++ [(cid', sz)] ++ msi,
                nc ++ [⟨some (extendPath path k), pos ++ [k], links⟩] ++ mc,
                nout ++ List.filterMap (emitOf P) [⟨some (extendPath path k), pos ++ [k], links⟩] ++ mout,
                ?_, ?_, ?_, ?_, ?_, ?_, ?_, ?_⟩
              · rw [d1, g3, e1]; simp [List.append_assoc]
              · rw [d2, g1, e2]; simp [List.append_assoc]
              · rw [d3, g4, e3]; simp [List.append_assoc]
              · intro x hx
                rcases List.mem_append.mp hx with hx | hx
                · rcases List.mem_append.mp hx with hx | hx
                  · exact e4 x hx
                  · simp at hx
                    subst hx
                    exact ⟨links, hP⟩
                · exact d4 x hx
              · intro cl hcl
                rcases List.mem_append.mp hcl with hcl | hcl
                · rcases List.mem_append.mp hcl with hcl | hcl
                  · exact e5 cl hcl
                  · simp at hcl; subst hcl; simp
                · exact d5 cl hcl
              · rw [postOrder, if_neg (by simp [hleaf'])]
                rw [List.map_append, List.map_append, f1]
                simp only [List.map_cons, List.map_nil, List.append_assoc]
                refine pre_append_right _ _ _ ?_
                exact pre_append_right _ _ _ d6
              · intro res hres
                rw [← h2] at hres
                simp at hres
              · intro e' he
                refine ⟨nout ++ List.filterMap (emitOf P) [⟨some (extendPath path k), pos ++ [k], links⟩] ++ pre, by rw [hpre]; simp [List.append_assoc], ?_⟩
                intro x hx
                rcases List.mem_append.mp hx with hx | hx
                · rcases List.mem_append.mp hx with hx | hx
                  · rw [f2] at hx
                    exact mem_filterMap_emitOf P nc x hx
                  · exact mem_filterMap_emitOf P _ x hx
                · exact hprerec x hx
            · -- rest succeeded
              rename_i s3 res3 heqr
              injection h with h1 h2
              subst h1
              obtain ⟨nsi, nc, nout, e1, e2, e3, e4, e5, e6, e7, e8⟩ :=
                ihv (some (extendPath path k)) (pos ++ [k]) s s1 _ heqv
              obtain ⟨f1, f2, f3⟩ := e7 res1 rfl
              obtain ⟨links, hl, g1, g2⟩ := persistStep_shape P res1 _ _ s1 s2 _ heqp
              rcases g2 with ⟨cid', sz, hP, hre, g3, g4⟩ | ⟨hP, hre, _, _⟩
              swap
              · simp at hre
              obtain ⟨msi, mc, mout, d1, d2, d3, d4, d5, d6, d7, d8⟩ := ihr path pos s2 s3 _ heqr
              obtain ⟨q1, q2, q3⟩ := d7 res3 rfl
              refine ⟨nsi ++ [(cid', sz)] ++ msi,
                nc ++ [⟨some (extendPath path k), pos ++ [k], links⟩] ++ mc,
                nout ++ List.filterMap (emitOf P) [⟨some (extendPath path k), pos ++ [k], links⟩] ++ mout,
                ?_, ?_, ?_, ?_, ?_, ?_, ?_, ?_⟩
              · rw [d1, g3, e1]; simp [List.append_assoc]
              · rw [d2, g1, e2]; simp [List.append_assoc]
              · rw [d3, g4, e3]; simp [List.append_assoc]
              · intro x hx
                rcases List.mem_append.mp hx with hx | hx
                · rcases List.mem_append.mp hx with hx | hx
                  · exact e4 x hx
                  · simp at hx
                    subst hx
                    exact ⟨links, hP⟩
                · exact d4 x hx
              · intro cl hcl
                rcases List.mem_append.mp hcl with hcl | hcl
                · rcases List.mem_append.mp hcl with hcl | hcl
                  · exact e5 cl hcl
                  · simp at hcl; subst hcl; simp
                · exact d5 cl hcl
              · rw [postOrder, if_neg (by simp [hleaf'])]
                rw [List.map_append, List.map_append, f1]
                simp only [List.map_cons, List.map_nil, List.append_assoc]
                refine pre_append_right _ _ _ ?_
                exact pre_append_right _ _ _ d6
              · intro res hres
                refine ⟨?_, ?_, ?_⟩
                · rw [postOrder, if_neg (by simp [hleaf'])]
                  rw [List.map_append, List.map_append, f1, q1]
                  simp [List.append_assoc]
                · rw [List.filterMap_append, List.filterMap_append, f2, q2]
                · intro cl hcl
                  rcases List.mem_append.mp hcl with hcl | hcl
                  · rcases List.mem_append.mp hcl with hcl | hcl
                    · exact f3 cl hcl
                    · simp at hcl
                      subst hcl
                      simp [hP]
                  · exact q3 cl hcl
              · intro e' he
                rw [← h2] at he
                simp at he


/-- State effect of the source's `traverse` on one directory object: the
resolution of the children followed by the persist step of the object
itself, whose call always closes the trace. -/
theorem traverse_spec (P : List Link → Option (Nat × Nat)) (t : JsTree)
    (path : Option String) (pos : List String) (s s' : St) (r : Except Unit Nat)
    (h : traverse P t path pos s = (s', r)) :
    ∃ nsi nc nout,
      s'.sizeIndex = s.sizeIndex ++ nsi ∧
      s'.calls = s.calls ++ nc ∧
      s'.output = s.output ++ nout ∧
      (∀ e ∈ nsi, ∃ l, P l = some e) ∧
      nc.map (fun cl => cl.pos) <+: postOrder t pos ++ [pos] ∧
      (∀ c, r = Except.ok c →
        nc.map (fun cl => cl.pos) = postOrder t pos ++ [pos] ∧
        nout = nc.filterMap (emitOf P) ∧
        (∀ cl ∈ nc, P cl.links ≠ none) ∧
        ∃ nc0 cl0, nc = nc0 ++ [cl0] ∧ cl0.path = path ∧ cl0.pos = pos ∧
          ∀ cl ∈ nc0, cl.path ≠ none) ∧
      (∀ e, r = Except.error e →
        ∃ pre, nout = pre ++ [OutItem.errorMsg "failed to store dirNode"] ∧
          ∀ x ∈ pre, ∃ p sz c, x = OutItem.record p sz c) := by
  unfold traverse at h
  split at h
  · -- child resolution failed
    rename_i s1 e heq
    injection h with h1 h2
    subst h1
    obtain ⟨nsi, nc, nout, e1, e2, e3, e4, e5, e6, e7, e8⟩ := flushList_spec P t path pos s s1 _ heq
    refine ⟨nsi, nc, nout, e1, e2, e3, e4, pre_of_pre_left _ _ _ e6, ?_, ?_⟩
    · intro c hc
      rw [← h2] at hc
      simp at hc
    · intro e' he
      exact e8 e rfl
  · -- children resolved; persist this directory
    rename_i s1 res1 heq
    obtain ⟨nsi, nc, nout, e1, e2, e3, e4, e5, e6, e7, e8⟩ := flushList_spec P t path pos s s1 _ heq
    obtain ⟨f1, f2, f3⟩ := e7 res1 rfl
    obtain ⟨links, hl, g1, g2⟩ := persistStep_shape P res1 path pos s1 s' r h
    rcases g2 with ⟨cid, sz, hP, hre, g3, g4⟩ | ⟨hP, hre, g3, g4⟩
    · -- persist succeeded
      refine ⟨nsi ++ [(cid, sz)], nc ++ [⟨path, pos, links⟩],
        nout ++ List.filterMap (emitOf P) [⟨path, pos, links⟩], ?_, ?_, ?_, ?_, ?_, ?_, ?_⟩
      · rw [g3, e1, List.append_assoc]
      · rw [g1, e2, List.append_assoc]
      · rw [g4, e3, List.append_assoc]
      · intro x hx
        rcases List.mem_append.mp hx with hx | hx
        · exact e4 x hx
        · simp at hx
          subst hx
          exact ⟨links, hP⟩
      · rw [List.map_append, f1]
        simp
      · intro c hc
        refine ⟨by rw [List.map_append, f1]; simp, by rw [List.filterMap_append, f2], ?_, nc, _, rfl, rfl, rfl, e5⟩
        intro cl hcl
        rcases List.mem_append.mp hcl with hcl | hcl
        · exact f3 cl hcl
        · simp at hcl
          subst hcl
          simp [hP]
      · intro e he
        rw [hre] at he
        simp at he
    · -- persist failed
      refine ⟨nsi, nc ++ [⟨path, pos, links⟩], nout ++ [OutItem.errorMsg "failed to store dirNode"],
        ?_, ?_, ?_, e4, ?_, ?_, ?_⟩
      · rw [g3, e1]
      · rw [g1, e2, List.append_assoc]
      · rw [g4, e3, List.append_assoc]
      · rw [List.map_append, f1]
        simp
      · intro c hc
        rw [hre] at hc
        simp at hc
      · intro e he
        refine ⟨nout, rfl, ?_⟩
        intro x hx
        rw [f2] at hx
        exact mem_filterMap_emitOf P nc x hx

/-- Case analysis of `flushTree`: the two early exits, a successful
traversal, or a traversal aborted by a persist failure. -/
theorem flushTree_cases (P : List Link → Option (Nat × Nat)) (files : List FileEntry) :
    (1 < numKeys (createTree files) ∧ flushTree P files = (St.init, FlushResult.multipleRoots)) ∨
    (numKeys (createTree files) = 0 ∧ flushTree P files = (St.init, FlushResult.noRoot)) ∨
    (∃ s c, traverse P (createTree files) none [] ⟨createSizeIndex files, [], []⟩ = (s, Except.ok c) ∧
      flushTree P files = (s, FlushResult.ok c)) ∨
    (∃ s e, traverse P (createTree files) none [] ⟨createSizeIndex files, [], []⟩ = (s, Except.error e) ∧
      flushTree P files = (s, FlushResult.persistFailed)) := by
  by_cases h1 : 1 < numKeys (createTree files)
  · exact Or.inl ⟨h1, by simp [flushTree, h1]⟩
  · by_cases h2 : numKeys (createTree files) = 0
    · exact Or.inr (Or.inl ⟨h2, by simp [flushTree, h1, h2]⟩)
    · cases htr : traverse P (createTree files) none [] ⟨createSizeIndex files, [], []⟩ with
      | mk s r =>
          cases r with
          | ok c =>
              refine Or.inr (Or.inr (Or.inl ⟨s, c, rfl, ?_⟩))
              simp [flushTree, h1, h2, htr]
          | error e =>
              refine Or.inr (Or.inr (Or.inr ⟨s, e, rfl, ?_⟩))
              simp [flushTree, h1, h2, htr]

/-- C4: whenever any recorded persist call failed, `flushTree` reports the
persist failure to its caller; in particular no root content id is
produced. -/
theorem c4_persist_failure_reported (P : List Link → Option (Nat × Nat))
    (files : List FileEntry)
    (h : ∃ cl ∈ (flushTree P files).1.calls, P cl.links = none) :
    (flushTree P files).2 = FlushResult.persistFailed := by
  rcases h with ⟨cl, hmem, hP⟩
  rcases flushTree_cases P files with ⟨_, heq⟩ | ⟨_, heq⟩ | ⟨s, c, htr, heq⟩ | ⟨s, e, htr, heq⟩
  · rw [heq] at hmem
    simp [St.init] at hmem
  · rw [heq] at hmem
    simp [St.init] at hmem
  · exfalso
    obtain ⟨nsi, nc, nout, e1, e2, e3, e4, e5, e6, e7⟩ := traverse_spec P _ none [] _ s _ htr
    obtain ⟨_, _, hall, _⟩ := e6 c rfl
    rw [heq] at hmem
    simp only at hmem
    rw [e2] at hmem
    simp only [List.nil_append] at hmem
    exact hall cl hmem hP
  · rw [heq]

theorem c4_persist_failure_witness :
    (∃ cl ∈ (flushTree P4 filesB).1.calls, P4 cl.links = none) ∧
      (flushTree P4 filesB).2 = FlushResult.persistFailed :=
  ⟨by decide, c4_persist_failure_reported P4 filesB (by decide)⟩

/-- C10: whenever `flushTree` ends with the persist failure, the output
pushed to the sink is directory records followed by exactly one trailing
Error value "failed to store dirNode", pushed by the failing persist step
before the failure propagates. -/
theorem c10_error_pushed_to_sink (P : List Link → Option (Nat × Nat))
    (files : List FileEntry)
    (h : (flushTree P files).2 = FlushResult.persistFailed) :
    ∃ pre, (flushTree P files).1.output = pre ++ [OutItem.errorMsg "failed to store dirNode"] ∧
      ∀ x ∈ pre, ∃ p sz c, x = OutItem.record p sz c := by
  rcases flushTree_cases P files with ⟨_, heq⟩ | ⟨_, heq⟩ | ⟨s, c, htr, heq⟩ | ⟨s, e, htr, heq⟩
  · rw [heq] at h
    simp at h
  · rw [heq] at h
    simp at h
  · rw [heq] at h
    simp at h
  · obtain ⟨nsi, nc, nout, e1, e2, e3, e4, e5, e6, e7⟩ := traverse_spec P _ none [] _ s _ htr
    obtain ⟨pre, hpre, hrec⟩ := e7 e rfl
    refine ⟨pre, ?_, hrec⟩
    rw [heq]
    simp only
    rw [e3]
    simpa using hpre

theorem c10_error_pushed_witness :
    ((flushTree P4 filesB).2 = FlushResult.persistFailed) ∧
      (∃ pre, (flushTree P4 filesB).1.output = pre ++ [OutItem.errorMsg "failed to store dirNode"] ∧
        ∀ x ∈ pre, ∃ p sz c, x = OutItem.record p sz c) :=
  ⟨by decide, c10_error_pushed_to_sink P4 filesB (by decide)⟩

/-- C5 counterexample: for the entry `///x/y` the built tree nests a
directory under the empty key; the run persists three directories but emits
only one record, because the directory whose accumulated path prefix is the
empty string is, like the root, never emitted (`if (path)` is falsy on
`""`). -/
theorem c5_counterexample :
    (flushTree P5 files5).2 = FlushResult.ok 155 ∧
      (flushTree P5 files5).1.calls.length = 3 ∧
      (flushTree P5 files5).1.output.length = 1 := by decide

/-- C5 (amended): in every successful run the output is exactly one record
per persist call whose path prefix is a truthy (non-null, non-empty) string,
in call order, carrying that call's path, measured size and new content id;
the root call is the last one, is the only one with a null path, and is
never emitted. -/
theorem c5_amended_record_per_dir (P : List Link → Option (Nat × Nat))
    (files : List FileEntry) (c : Nat)
    (h : (flushTree P files).2 = FlushResult.ok c) :
    (flushTree P files).1.output = (flushTree P files).1.calls.filterMap (emitOf P) ∧
      ∃ nc0 cl0, (flushTree P files).1.calls = nc0 ++ [cl0] ∧ cl0.path = none ∧
        ∀ cl ∈ nc0, cl.path ≠ none := by
  rcases flushTree_cases P files with ⟨_, heq⟩ | ⟨_, heq⟩ | ⟨s, c', htr, heq⟩ | ⟨s, e, htr, heq⟩
  · rw [heq] at h
    simp at h
  · rw [heq] at h
    simp at h
  · obtain ⟨nsi, nc, nout, e1, e2, e3, e4, e5, e6, e7⟩ := traverse_spec P _ none [] _ s _ htr
    obtain ⟨f1, f2, f3, nc0, cl0, hdec, hcl0, hpos0, hnc0⟩ := e6 c' rfl
    rw [heq]
    simp only
    rw [e2, e3]
    simp only [List.nil_append]
    exact ⟨f2, nc0, cl0, hdec, hcl0, hnc0⟩
  · rw [heq] at h
    simp at h

theorem c5_amended_witness :
    ((flushTree P1 filesB).2 = FlushResult.ok 8) ∧
      ((flushTree P1 filesB).1.output = (flushTree P1 filesB).1.calls.filterMap (emitOf P1) ∧
        ∃ nc0 cl0, (flushTree P1 filesB).1.calls = nc0 ++ [cl0] ∧ cl0.path = none ∧
          ∀ cl ∈ nc0, cl.path ≠ none) :=
  ⟨by decide, c5_amended_record_per_dir P1 filesB 8 (by decide)⟩

/-- C8 counterexample: two entries under one root share the content id 3
with different declared sizes; the seeding writes the key 3 twice and the
size index holds the two different sizes 5 and 7 for it during the run. -/
theorem c8_counterexample :
    (3, 5) ∈ (flushTree P1 files8).1.sizeIndex ∧
      (3, 7) ∈ (flushTree P1 files8).1.sizeIndex := by decide

/-- C8 (amended): keys of the size index can be written more than once, but
when all entries with equal content ids declare equal sizes and the persist
oracle is size-consistent (equal returned ids imply equal sizes, and a
returned id colliding with a file id carries that file's size), the size
index never holds two different sizes for the same content id. -/
theorem c8_amended_size_consistent (P : List Link → Option (Nat × Nat))
    (files : List FileEntry)
    (H1 : ∀ f ∈ files, ∀ g ∈ files, f.cid = g.cid → f.size = g.size)
    (H2 : ∀ l l' c s s', P l = some (c, s) → P l' = some (c, s') → s = s')
    (H3 : ∀ l c s, P l = some (c, s) → ∀ f ∈ files, f.cid = c → f.size = s) :
    ∀ c s1 s2, (c, s1) ∈ (flushTree P files).1.sizeIndex →
      (c, s2) ∈ (flushTree P files).1.sizeIndex → s1 = s2 := by
  have key : ∀ c s0, (c, s0) ∈ (flushTree P files).1.sizeIndex →
      (∃ f ∈ files, f.cid = c ∧ f.size = s0) ∨ (∃ l, P l = some (c, s0)) := by
    intro c s0 hmem
    rcases flushTree_cases P files with ⟨_, heq⟩ | ⟨_, heq⟩ | ⟨s, c', htr, heq⟩ | ⟨s, e, htr, heq⟩
    · rw [heq] at hmem
      simp [St.init] at hmem
    · rw [heq] at hmem
      simp [St.init] at hmem
    · obtain ⟨nsi, nc, nout, e1, e2, e3, e4, _⟩ := traverse_spec P _ none [] _ s _ htr
      rw [heq] at hmem
      simp only at hmem
      rw [e1] at hmem
      simp only at hmem
      rcases List.mem_append.mp hmem with hmem | hmem
      · rcases List.mem_map.mp hmem with ⟨f, hf, hfe⟩
        exact Or.inl ⟨f, hf, congrArg Prod.fst hfe, congrArg Prod.snd hfe⟩
      · exact Or.inr (e4 _ hmem)
    · obtain ⟨nsi, nc, nout, e1, e2, e3, e4, _⟩ := traverse_spec P _ none [] _ s _ htr
      rw [heq] at hmem
      simp only at hmem
      rw [e1] at hmem
      simp only at hmem
      rcases List.mem_append.mp hmem with hmem | hmem
      · rcases List.mem_map.mp hmem with ⟨f, hf, hfe⟩
        exact Or.inl ⟨f, hf, congrArg Prod.fst hfe, congrArg Prod.snd hfe⟩
      · exact Or.inr (e4 _ hmem)
  intro c s1 s2 h1 h2
  rcases key c s1 h1 with ⟨f, hf, hfc, hfs⟩ | ⟨l, hl⟩
  · rcases key c s2 h2 with ⟨g, hg, hgc, hgs⟩ | ⟨l', hl'⟩
    · rw [← hfs, ← hgs]
      exact H1 f hf g hg (hfc.trans hgc.symm)
    · rw [← hfs]
      exact H3 l' c s2 hl' f hf hfc
  · rcases key c s2 h2 with ⟨g, hg, hgc, hgs⟩ | ⟨l', hl'⟩
    · rw [← hgs]
      exact (H3 l c s1 hl g hg hgc).symm
    · exact H2 l l' c s1 s2 hl hl'

theorem c8_amended_witness :
    ((3, 10) ∈ (flushTree P9 filesC).1.sizeIndex → False) ∧ (10 = 10) ∧
      ((4, 1) ∈ (flushTree P9 filesC).1.sizeIndex ∧
        (∀ s1 s2 : Nat, (4, s1) ∈ (flushTree P9 filesC).1.sizeIndex →
          (4, s2) ∈ (flushTree P9 filesC).1.sizeIndex → s1 = s2)) := by
  refine ⟨by decide, rfl, by decide, ?_⟩
  intro s1 s2 h1 h2
  refine c8_amended_size_consistent P9 filesC ?_ ?_ ?_ 4 s1 s2 h1 h2
  · decide
  · intro l l' c s s' h h'
    simp [P9] at h h'
    omega
  · intro l c s h f hf hc
    simp [P9] at h
    rcases h with ⟨hc9, _⟩
    rcases (by simpa [filesC] using hf) with rfl
    rw [← hc9] at hc
    simp [filesC] at hc

theorem WFl_leaf (c : Nat) : WFl (JsTree.leaf c) = true := rfl

theorem WFl_nil : WFl JsTree.nil = true := rfl

theorem prefix_eq_of_length {p q l : List String} (hp : p <+: l) (hq : q <+: l)
    (h : p.length = q.length) : p = q :=
  (List.prefix_of_prefix_length_le hp hq h.le).eq_of_length h

theorem postOrder_ext (t : JsTree) : ∀ pos q, q ∈ postOrder t pos →
    ∃ k ∈ keysOf t, (pos ++ [k]) <+: q := by
  induction t with
  | leaf c => intro pos q h; simp [postOrder] at h
  | nil => intro pos q h; simp [postOrder] at h
  | cons k v rest ihv ihr =>
      intro pos q h
      rw [postOrder] at h
      rcases List.mem_append.mp h with h | h
      · by_cases hleaf : isLeaf v
        · rw [if_pos hleaf] at h
          simp at h
        · rw [if_neg hleaf] at h
          rcases List.mem_append.mp h with h | h
          · rcases ihv (pos ++ [k]) q h with ⟨k', _, hpre⟩
            exact ⟨k, by simp [keysOf], (List.prefix_append _ _).trans hpre⟩
          · simp at h
            subst h
            exact ⟨k, by simp [keysOf], List.prefix_refl _⟩
      · rcases ihr pos q h with ⟨k', hk', hpre⟩
        exact ⟨k', by simp [keysOf, hk'], hpre⟩

theorem not_strictpre_of_mem_postOrder (t : JsTree) (pos : List String) (a : List String)
    (ha : a ∈ postOrder t pos) : ¬ StrictPre a pos := by
  rintro ⟨hpre, _⟩
  rcases postOrder_ext t pos a ha with ⟨k, _, hk⟩
  have h1 : pos.length + 1 ≤ a.length := by simpa using hk.length_le
  have h2 : a.length ≤ pos.length := hpre.length_le
  omega

theorem postOrder_pairwise (t : JsTree) : ∀ pos, WFl t = true →
    (postOrder t pos).Pairwise (fun a b => ¬ StrictPre a b) := by
  induction t with
  | leaf c => intro pos _; simp [postOrder]
  | nil => intro pos _; simp [postOrder]
  | cons k v rest ihv ihr =>
      intro pos hWF
      rw [WFl] at hWF
      simp only [Bool.and_eq_true, decide_eq_true_eq] at hWF
      obtain ⟨⟨hk, hv⟩, hr⟩ := hWF
      rw [postOrder, List.pairwise_append]
      refine ⟨?_, ihr pos hr, ?_⟩
      · by_cases hleaf : isLeaf v
        · simp [hleaf]
        · rw [if_neg hleaf, List.pairwise_append]
          refine ⟨ihv (pos ++ [k]) hv, by simp, ?_⟩
          intro a ha b hb
          simp only [List.mem_singleton] at hb
          subst hb
          exact not_strictpre_of_mem_postOrder v (pos ++ [k]) a ha
      · intro a ha b hb
        have hak : pos ++ [k] <+: a := by
          by_cases hleaf : isLeaf v
          · rw [if_pos hleaf] at ha
            simp at ha
          · rw [if_neg hleaf] at ha
            rcases List.mem_append.mp ha with ha | ha
            · rcases postOrder_ext v (pos ++ [k]) a ha with ⟨k', _, hk'⟩
              exact (List.prefix_append _ _).trans hk'
            · simp at ha
              subst ha
              exact List.prefix_refl _
        rcases postOrder_ext rest pos b hb with ⟨k'', hk'', hbk⟩
        rintro ⟨hab, _⟩
        have h1 : pos ++ [k] <+: b := hak.trans hab
        have h2 : pos ++ [k] = pos ++ [k''] := prefix_eq_of_length h1 hbk (by simp)
        have h3 : k = k'' := by simpa using h2
        exact hk (h3 ▸ hk'')

theorem postOrder_root_pairwise (t : JsTree) (pos : List String) (hWF : WFl t = true) :
    (postOrder t pos ++ [pos]).Pairwise (fun a b => ¬ StrictPre a b) := by
  rw [List.pairwise_append]
  refine ⟨postOrder_pairwise t pos hWF, by simp, ?_⟩
  intro a ha b hb
  simp only [List.mem_singleton] at hb
  rw [hb]
  exact not_strictpre_of_mem_postOrder t pos a ha

theorem keys_setKey_mem_inv (t : JsTree) (k k' : String) (v : JsTree)
    (h : k' ∈ keysOf (setKey t k v)) : k' ∈ keysOf t ∨ k' = k := by
  induction t with
  | leaf c => simp [setKey, keysOf] at h; exact Or.inr h
  | nil => simp [setKey, keysOf] at h; exact Or.inr h
  | cons k2 v2 r ihv ihr =>
      by_cases hk : k2 = k
      · rw [setKey, if_pos hk] at h
        simp only [keysOf, List.mem_cons] at h
        rcases h with h | h
        · exact Or.inl (by simp [keysOf, h])
        · exact Or.inl (by simp [keysOf, h])
      · rw [setKey, if_neg hk] at h
        simp only [keysOf, List.mem_cons] at h
        rcases h with h | h
        · exact Or.inl (by simp [keysOf, h])
        · rcases ihr h with h1 | h1
          · exact Or.inl (by simp [keysOf, h1])
          · exact Or.inr h1

theorem WFl_setKey (t : JsTree) (k : String) (v : JsTree) (ht : WFl t = true)
    (hv : WFl v = true) : WFl (setKey t k v) = true := by
  induction t with
  | leaf c => simp [setKey, WFl, keysOf, hv]
  | nil => simp [setKey, WFl, keysOf, hv]
  | cons k2 v2 r ihv ihr =>
      rw [WFl] at ht
      simp only [Bool.and_eq_true, decide_eq_true_eq] at ht
      obtain ⟨⟨hk2, hv2⟩, hr⟩ := ht
      by_cases hk : k2 = k
      · rw [setKey, if_pos hk, WFl]
        simp [hk2, hv, hr]
      · rw [setKey, if_neg hk, WFl]
        simp only [Bool.and_eq_true, decide_eq_true_eq]
        refine ⟨⟨?_, hv2⟩, ihr hr⟩
        intro hmem
        rcases keys_setKey_mem_inv r k k2 v hmem with h1 | h1
        · exact hk2 h1
        · exact hk h1

theorem WFl_lookupKey (t : JsTree) (k : String) (v : JsTree) (ht : WFl t = true)
    (h : lookupKey t k = some v) : WFl v = true := by
  induction t with
  | leaf c => simp [lookupKey] at h
  | nil => simp [lookupKey] at h
  | cons k2 v2 r ihv ihr =>
      rw [WFl] at ht
      simp only [Bool.and_eq_true, decide_eq_true_eq] at ht
      obtain ⟨⟨hk2, hv2⟩, hr⟩ := ht
      by_cases hk : k2 = k
      · rw [lookupKey, if_pos hk] at h
        injection h with h
        subst h
        exact hv2
      · rw [lookupKey, if_neg hk] at h
        exact ihr hr h

theorem WFl_insertComps : ∀ (comps : List String) (c : Nat) (t : JsTree),
    WFl t = true → WFl (insertComps comps c t) = true
  | [], _, t, h => by simpa [insertComps] using h
  | [k], c, t, h => by
      rw [insertComps]
      exact WFl_setKey t k (JsTree.leaf c) h (WFl_leaf c)
  | k :: k2 :: rest, c, t, h => by
      rw [insertComps]
      cases hl : lookupKey t k with
      | none =>
          exact WFl_setKey t k _ h (WFl_insertComps (k2 :: rest) c JsTree.nil WFl_nil)
      | some sub =>
          cases sub with
          | leaf c2 => exact h
          | nil =>
              exact WFl_setKey t k _ h
                (WFl_insertComps (k2 :: rest) c JsTree.nil (WFl_lookupKey t k _ h hl))
          | cons a b d =>
              exact WFl_setKey t k _ h
                (WFl_insertComps (k2 :: rest) c (JsTree.cons a b d) (WFl_lookupKey t k _ h hl))

theorem WFl_createTreeStep (t : JsTree) (f : FileEntry) (h : WFl t = true) :
    WFl (createTreeStep t f) = true := by
  unfold createTreeStep
  by_cases h1 : (toPathComponents f.path).length = 1
  · simpa [h1] using h
  · simp only [h1, if_false]
    exact WFl_insertComps _ f.cid t h

theorem WFl_createTree (files : List FileEntry) : WFl (createTree files) = true := by
  unfold createTree
  have : ∀ t : JsTree, WFl t = true → WFl (List.foldl createTreeStep t files) = true := by
    induction files with
    | nil => intro t h; simpa using h
    | cons f fs ih =>
        intro t h
        simp only [List.foldl_cons]
        exact ih _ (WFl_createTreeStep t f h)
  exact this JsTree.nil WFl_nil

theorem pre_getElem? {α : Type} (l m : List α) (h : l <+: m) (i : Nat)
    (hi : i < l.length) : m[i]? = l[i]? := by
  rcases h with ⟨t, rfl⟩
  exact List.getElem?_append_left hi

/-- The key paths of the persist calls of a whole run form a prefix of the
post-order enumeration of the built tree followed by the root position. -/
theorem flushTree_trace (P : List Link → Option (Nat × Nat)) (files : List FileEntry) :
    (flushTree P files).1.calls.map (fun cl => cl.pos) <+:
      postOrder (createTree files) [] ++ [([] : List String)] := by
  rcases flushTree_cases P files with ⟨_, heq⟩ | ⟨_, heq⟩ | ⟨s, c, htr, heq⟩ | ⟨s, e, htr, heq⟩
  · rw [heq]
    simp [St.init]
  · rw [heq]
    simp [St.init]
  · obtain ⟨nsi, nc, nout, e1, e2, e3, e4, e5, e6, e7⟩ := traverse_spec P _ none [] _ s _ htr
    rw [heq]
    simp only
    rw [e2]
    simpa using e5
  · obtain ⟨nsi, nc, nout, e1, e2, e3, e4, e5, e6, e7⟩ := traverse_spec P _ none [] _ s _ htr
    rw [heq]
    simp only
    rw [e2]
    simpa using e5

/-- C2: post-order persistence.  For any input and any persist oracle, if the
call trace persists the directory at key path `q` at step `i`, then (first
part) any call for a strict ancestor of `q` comes strictly later, and (second
part) every strict descendant of `q` among the tree's directories has already
been persisted at an earlier step. -/
theorem c2_postorder_persistence (P : List Link → Option (Nat × Nat)) (files : List FileEntry) :
    (∀ (i j : Nat) (q q' : List String),
      ((flushTree P files).1.calls.map (fun cl => cl.pos))[i]? = some q →
      ((flushTree P files).1.calls.map (fun cl => cl.pos))[j]? = some q' →
      StrictPre q q' → j < i) ∧
    (∀ (i : Nat) (q q' : List String),
      ((flushTree P files).1.calls.map (fun cl => cl.pos))[i]? = some q →
      q' ∈ postOrder (createTree files) [] ++ [([] : List String)] →
      StrictPre q q' →
      ∃ j, j < i ∧ ((flushTree P files).1.calls.map (fun cl => cl.pos))[j]? = some q') := by
  have hpre := flushTree_trace P files
  set T := (flushTree P files).1.calls.map (fun cl => cl.pos) with hT
  set L := postOrder (createTree files) [] ++ [([] : List String)] with hL
  have hPW : L.Pairwise (fun a b => ¬ StrictPre a b) :=
    postOrder_root_pairwise (createTree files) [] (WFl_createTree files)
  have hPWg := List.pairwise_iff_get.mp hPW
  have hTL : ∀ i q, T[i]? = some q → ∃ hi : i < L.length, L.get ⟨i, hi⟩ = q := by
    intro i q hiq
    have hilt : i < T.length := (List.getElem?_eq_some.mp hiq).1
    have : L[i]? = some q := by rw [pre_getElem? T L hpre i hilt]; exact hiq
    obtain ⟨h1, h2⟩ := List.getElem?_eq_some.mp this
    exact ⟨h1, h2⟩
  constructor
  · intro i j q q' hi hj hsp
    obtain ⟨hiL, hiq⟩ := hTL i q hi
    obtain ⟨hjL, hjq⟩ := hTL j q' hj
    rcases Nat.lt_trichotomy i j with hij | hij | hij
    · exfalso
      exact hPWg ⟨i, hiL⟩ ⟨j, hjL⟩ hij (by rw [hiq, hjq]; exact hsp)
    · exfalso
      subst hij
      rw [hiq] at hjq
      exact hsp.2 (hjq ▸ rfl)
    · exact hij
  · intro i q q' hi hmem hsp
    obtain ⟨hiL, hiq⟩ := hTL i q hi
    obtain ⟨j0, hj0lt, hj0⟩ := List.getElem_of_mem hmem
    have hilt : i < T.length := (List.getElem?_eq_some.mp hi).1
    have hj0lti : j0 < i := by
      rcases Nat.lt_trichotomy i j0 with hij | hij | hij
      · exfalso
        refine hPWg ⟨i, hiL⟩ ⟨j0, hj0lt⟩ hij ?_
        rw [hiq]
        have hget : L.get ⟨j0, hj0lt⟩ = q' := by simpa [List.get_eq_getElem] using hj0
        rw [hget]
        exact hsp
      · exfalso
        subst hij
        have hq : q = q' := by
          rw [← hiq, ← hj0]
          simp [List.get_eq_getElem]
        exact hsp.2 hq
      · exact hij
    refine ⟨j0, hj0lti, ?_⟩
    rw [← pre_getElem? T L hpre j0 (by omega)]
    rw [List.getElem?_eq_getElem hj0lt, hj0]


theorem c2_postorder_witness :
    (((flushTree PC filesC).1.calls.map (fun cl => cl.pos))[2]? = some [] ∧ (0 : Nat) < 2) ∧
      ∃ j, j < 2 ∧ ((flushTree PC filesC).1.calls.map (fun cl => cl.pos))[j]? = some ["a"] :=
  ⟨⟨by decide,
    (c2_postorder_persistence PC filesC).1 2 0 [] ["a", "b"] (by decide) (by decide) (by decide)⟩,
   (c2_postorder_persistence PC filesC).2 2 [] ["a"] (by decide) (by decide) (by decide)⟩

end UnixFS
